import Mathlib

/-!
Verification development for a bank-statement parsing and forecasting pipeline.

The source programs are two Python scripts:
* `Actual_bankstatement_parser.py` — header extraction, transaction-table
  location, amount/kind derivation, narration cleaning and keyword
  classification, and category/expenditure aggregation;
* `prediction_with_mutualfunds_recomendation.py` — monthly aggregation,
  quantile-based outlier removal, forecast display/export, and an investment
  rule engine.

Strings are embedded as `List Char`.  Python's `str.lower` is modelled by
`Char.toLower` (ASCII case mapping; non-ASCII letters are deleted by the
subsequent `[^a-zA-Z0-9 ]` substitution, so the ASCII mapping is what the
pipeline observes).  Monetary values are embedded as `ℚ`.  Pandas
DataFrames appear as lists of rows, and `iloc` slicing is modelled by
`pySlice` with Python slice semantics.
-/

/-- Unpack a string literal into the `List Char` representation used here. -/
def chars (s : String) : List Char := s.data

/-- Python's `\s` character class (ASCII part): space, TAB, LF, CR, VT, FF. -/
def pyIsSpace (c : Char) : Bool :=
  decide (c.toNat = 32 ∨ c.toNat = 9 ∨ c.toNat = 10 ∨ c.toNat = 13 ∨
    c.toNat = 11 ∨ c.toNat = 12)

/-- Characters kept by `re.sub(r'[^a-zA-Z0-9 ]', ' ', ·)`:
upper/lower ASCII letters, digits, and the space. -/
def keepChar (c : Char) : Bool :=
  decide ((65 ≤ c.toNat ∧ c.toNat ≤ 90) ∨ (97 ≤ c.toNat ∧ c.toNat ≤ 122) ∨
    (48 ≤ c.toNat ∧ c.toNat ≤ 57) ∨ c.toNat = 32)

/-- One character of `re.sub(r'[^a-zA-Z0-9 ]', ' ', text)`. -/
def subNonAlnum (c : Char) : Char :=
  if keepChar c then c else ' '

/-- `re.sub(r'\s+', ' ', ·)`: each maximal whitespace run becomes one space. -/
def collapseWs : List Char → List Char
  | [] => []
  | [c] => if pyIsSpace c then [' '] else [c]
  | c :: d :: cs =>
    if pyIsSpace c then
      if pyIsSpace d then collapseWs (d :: cs)
      else ' ' :: collapseWs (d :: cs)
    else c :: collapseWs (d :: cs)

/-- Remove a trailing whitespace run (the right half of Python `str.strip`). -/
def dropTrailWs : List Char → List Char
  | [] => []
  | c :: cs =>
    match dropTrailWs cs with
    | [] => if pyIsSpace c then [] else [c]
    | r => c :: r

/-- Python `str.strip()` (whitespace at both ends). -/
def pyStrip (s : List Char) : List Char :=
  dropTrailWs (s.dropWhile fun c => pyIsSpace c)

/-- Python's substring test `pat in s`. -/
def isSubstr (pat : List Char) : List Char → Bool
  | [] => pat.isEmpty
  | c :: rest => pat.isPrefixOf (c :: rest) || isSubstr pat rest

/-- Python `' '.join(strs)`. -/
def joinSpace : List (List Char) → List Char
  | [] => []
  | [x] => x
  | x :: y :: ys => x ++ ' ' :: joinSpace (y :: ys)

/-- `str.lower` over a whole string (ASCII case mapping, see module comment). -/
def lowerStr (s : List Char) : List Char := s.map Char.toLower

/-- `clean_text`: lowercase, replace `[^a-zA-Z0-9 ]` by spaces, collapse
whitespace runs, and strip. -/
def clean_text (text : List Char) : List Char :=
  pyStrip (collapseWs ((text.map Char.toLower).map subNonAlnum))

/-- The `categories` keyword taxonomy, in source declaration order. -/
def categories : List (List Char × List (List Char)) :=
  [ (chars "transfer",
      [chars "upi", chars "imps", chars "neft", chars "rtgs",
       chars "ib billpay", chars "billpay"]),
    (chars "salary", [chars "salary", chars "payroll", chars "credit"]),
    (chars "shopping",
      [chars "amazon", chars "flipkart", chars "myntra", chars "shopping",
       chars "ecommerce", chars "paytm"]),
    (chars "food",
      [chars "swiggy", chars "zomato", chars "food", chars "restaurant",
       chars "cafe", chars "luluinternationalsho", chars "bakery",
       chars "gpay"]),
    (chars "entertainment",
      [chars "netflix", chars "youtube", chars "spotify",
       chars "entertainment"]),
    (chars "utilities",
      [chars "electricity", chars "water", chars "gas", chars "bill",
       chars "recharge"]),
    (chars "fuel",
      [chars "petrol", chars "diesel", chars "fuel", chars "hpcl",
       chars "bpcl"]),
    (chars "others", []) ]

/-- The nested `for category / for keyword` loop of `categorize_transaction`:
the first category one of whose keywords occurs in the narration wins. -/
def categorize_loop : List (List Char × List (List Char)) → List Char → List Char
  | [], _ => chars "others"
  | (cat, kws) :: rest, narration =>
    if kws.any (fun kw => isSubstr kw narration) then cat
    else categorize_loop rest narration

/-- `categorize_transaction` applied to an (already cleaned) narration. -/
def categorize_transaction (narration : List Char) : List Char :=
  categorize_loop categories narration

/-- A row after the numeric coercion of `withdrawal_amt`/`deposit_amt`. -/
structure LedgerRow where
  withdrawal_amt : ℚ
  deposit_amt : ℚ
deriving DecidableEq

/-- `calculate_amount`. -/
def calculate_amount (row : LedgerRow) : ℚ :=
  if row.withdrawal_amt > 0 then row.withdrawal_amt
  else if row.deposit_amt > 0 then row.deposit_amt
  else 0

/-- `calculate_transaction_type`. -/
def calculate_transaction_type (row : LedgerRow) : List Char :=
  if row.withdrawal_amt > 0 then chars "withdrawal"
  else if row.deposit_amt > 0 then chars "deposit"
  else chars "unknown"

/-- A sheet row matching the table-header test of
`find_transaction_data_indices`: its lowercased cell values contain both
`"date"` and `"narration"` as whole cells. -/
def isHdrRow (r : List (List Char)) : Bool :=
  decide ((chars "date") ∈ r.map lowerStr) &&
    decide ((chars "narration") ∈ r.map lowerStr)

/-- A sheet row matching the end-marker test: `"statement summary"` occurs in
the space-join of its lowercased cell values. -/
def isSumRow (r : List (List Char)) : Bool :=
  isSubstr (chars "statement summary") (joinSpace (r.map lowerStr))

/-- The scan loop of `find_transaction_data_indices`: a header row sets the
start index to the following row (later header rows overwrite it); the first
`"statement summary"` row sets the end index to the preceding row and stops. -/
def find_tx_loop : List (List (List Char)) → ℤ → Option ℤ → Option ℤ × Option ℤ
  | [], _, start => (start, none)
  | r :: rs, i, start =>
    if isHdrRow r then find_tx_loop rs (i + 1) (some (i + 1))
    else if isSumRow r then (start, some (i - 1))
    else find_tx_loop rs (i + 1) start

/-- `find_transaction_data_indices`. -/
def find_transaction_data_indices (df : List (List (List Char))) :
    Option ℤ × Option ℤ :=
  find_tx_loop df 0 none

/-- Python slice semantics `l[start:stop]` (as used by `DataFrame.iloc` with a
slice): `None` bounds default to the ends, negative bounds count from the end,
out-of-range bounds clamp. -/
def pySlice (l : List α) (start stop : Option ℤ) : List α :=
  let n := l.length
  let s : ℕ := match start with
    | none => 0
    | some i => if i < 0 then (i + n).toNat else min i.toNat n
  let e : ℕ := match stop with
    | none => n
    | some i => if i < 0 then (i + n).toNat else min i.toNat n
  (l.take e).drop s

/-- The module-level table extraction `df_raw.iloc[start_idx:end_idx]`. -/
def extract_table (df : List (List (List Char))) : List (List (List Char)) :=
  let se := find_transaction_data_indices df
  pySlice df se.1 se.2

/-- Claim C1 (counterexample): at the non-negative record
`withdrawal_amt = 5, deposit_amt = 10` (both fields positive) the derived
amount is `5`, not `max 5 10 = 10`, and the kind is `withdrawal` although
`deposit_amt` is nonzero, so the claimed invariants fail. -/
theorem C1_counterexample :
    (0 : ℚ) ≤ 5 ∧ (0 : ℚ) ≤ 10 ∧
    calculate_amount ⟨5, 10⟩ = 5 ∧ max (5 : ℚ) 10 = 10 ∧
    calculate_amount ⟨5, 10⟩ ≠ max (5 : ℚ) 10 ∧
    calculate_transaction_type ⟨5, 10⟩ = chars "withdrawal" ∧ (10 : ℚ) ≠ 0 := by
  refine ⟨by norm_num, by norm_num, by norm_num [calculate_amount], ?_, ?_, ?_, by norm_num⟩
  · norm_num
  · norm_num [calculate_amount]
  · norm_num [calculate_transaction_type]

/-- Claim C1 (amended): for every coerced record in which the two monetary
fields are non-negative and not both positive, `calculate_amount` equals
`max withdrawal_amt deposit_amt`, the transaction type is `withdrawal` iff
`withdrawal_amt > 0`, `deposit` iff `deposit_amt > 0` (and `withdrawal_amt = 0`),
and type `unknown` forces amount `0`.  (When both fields are positive the
code's tie-break yields type `withdrawal` and amount `withdrawal_amt`, which
can be smaller than the maximum.) -/
theorem C1_amended (w d : ℚ) (hw : 0 ≤ w) (hd : 0 ≤ d)
    (hboth : ¬ (0 < w ∧ 0 < d)) :
    calculate_amount ⟨w, d⟩ = max w d ∧
    (calculate_transaction_type ⟨w, d⟩ = chars "withdrawal" ↔ 0 < w) ∧
    (calculate_transaction_type ⟨w, d⟩ = chars "deposit" ↔ 0 < d ∧ w = 0) ∧
    (calculate_transaction_type ⟨w, d⟩ = chars "unknown" →
      calculate_amount ⟨w, d⟩ = 0) := by
  by_cases hw0 : 0 < w
  · have hd0 : d = 0 := le_antisymm (by
      by_contra hlt
      exact hboth ⟨hw0, lt_of_le_of_ne hd (fun h => hlt h.symm.le)⟩) hd
    subst hd0
    simp only [calculate_amount, calculate_transaction_type, hw0, if_pos]
    refine ⟨(max_eq_left hw).symm, by simp [hw0], ?_, ?_⟩
    · constructor
      · intro h; exact absurd h (by decide)
      · rintro ⟨h0, rfl⟩; exact absurd hw0 (lt_irrefl 0)
    · intro h; exact absurd h (by decide)
  · have hw0' : w = 0 := le_antisymm (not_lt.mp hw0) hw
    subst hw0'
    by_cases hd0 : 0 < d
    · simp only [calculate_amount, calculate_transaction_type, lt_irrefl,
        if_false, hd0, if_pos, if_neg (lt_irrefl (0 : ℚ))]
      refine ⟨(max_eq_right hd).symm, ?_, by simp [hd0], ?_⟩
      · constructor
        · intro h; exact absurd h (by decide)
        · intro h; exact h.elim
      · intro h; exact absurd h (by decide)
    · have hd0' : d = 0 := le_antisymm (not_lt.mp hd0) hd
      subst hd0'
      simp only [calculate_amount, calculate_transaction_type, lt_irrefl,
        if_neg (lt_irrefl (0 : ℚ))]
      refine ⟨by norm_num, ?_, ?_, fun _ => rfl⟩
      · constructor
        · intro h; exact absurd h (by decide)
        · intro h; exact h.elim
      · constructor
        · intro h; exact absurd h (by decide)
        · rintro ⟨h, -⟩; exact h.elim

/-- Witness for C1_amended at the concrete record `(7, 0)`. -/
theorem C1_witness :
    calculate_amount ⟨7, 0⟩ = max (7 : ℚ) 0 ∧
    (calculate_transaction_type ⟨7, 0⟩ = chars "withdrawal" ↔ (0 : ℚ) < 7) ∧
    (calculate_transaction_type ⟨7, 0⟩ = chars "deposit" ↔ (0 : ℚ) < 0 ∧ (7 : ℚ) = 0) ∧
    (calculate_transaction_type ⟨7, 0⟩ = chars "unknown" →
      calculate_amount ⟨7, 0⟩ = 0) :=
  C1_amended 7 0 (by norm_num) (by norm_num) (by norm_num)

/-- Claim C2: on a sheet with no header row containing both `date` and
`narration`, `find_transaction_data_indices` returns `(None, None)` and the
module-level `iloc` slice silently yields the entire sheet — the pipeline does
not fail fast with a "table not found" condition. -/
theorem C2_code_behavior :
    find_transaction_data_indices [[chars "hello"], [chars "world"]]
      = (none, none) ∧
    extract_table [[chars "hello"], [chars "world"]]
      = [[chars "hello"], [chars "world"]] := by
  exact ⟨by decide, by decide⟩

/-- Linear-interpolation quantile as computed by `Series.quantile` (numpy
`linear` interpolation): virtual index `h = q * (n - 1)` into the sorted
values, result `x[⌊h⌋] + (h - ⌊h⌋) * (x[⌊h⌋ + 1] - x[⌊h⌋])` (when `h` is an
integer the fractional weight is `0`, so the out-of-range neighbour
contributes nothing). -/
def pandas_quantile (xs : List ℚ) (q : ℚ) : ℚ :=
  let s := List.insertionSort (· ≤ ·) xs
  let h : ℚ := q * (s.length - 1)
  let j : ℤ := ⌊h⌋
  let lo := s.getD j.toNat 0
  let hi := s.getD (j.toNat + 1) 0
  lo + (h - j) * (hi - lo)

/-- `remove_outliers`: keep the points lying within the two quantile bounds
of the series (bounds inclusive). -/
def remove_outliers (xs : List ℚ) (lower_quantile upper_quantile : ℚ) : List ℚ :=
  let lower := pandas_quantile xs lower_quantile
  let upper := pandas_quantile xs upper_quantile
  xs.filter fun x => decide (lower ≤ x) && decide (x ≤ upper)

/-- The two default quantile bounds of the claimed scenario series
`[(Jan,100),(Feb,-50),(Mar,9000)]`: the interpolated 1st percentile is `-47`
and the 99th percentile is `8822`. -/
theorem quantiles_scenario :
    pandas_quantile [100, -50, 9000] (1/100) = -47 ∧
    pandas_quantile [100, -50, 9000] (99/100) = 8822 := by
  have hs : List.insertionSort (· ≤ ·) [(100:ℚ), -50, 9000] = [-50, 100, 9000] := by
    decide
  constructor <;>
    · simp only [pandas_quantile, hs, List.length_cons, List.length_nil]
      norm_num [List.getD]

/-- Claim C3 (counterexample): `remove_outliers` on the 3-point series
`[100, -50, 9000]` with the default 1%/99% bounds is not a no-op: there is no
minimum-sample check, the interpolated quantile bounds are `[-47, 8822]`, and
both extremes are removed, leaving only `[100]`. -/
theorem C3_counterexample :
    remove_outliers [100, -50, 9000] (1/100) (99/100) ≠ [100, -50, 9000] := by
  obtain ⟨h1, h2⟩ := quantiles_scenario
  simp only [remove_outliers, h1, h2]
  decide

/-- Claim C3 (amended): `remove_outliers` applies the quantile filter to every
series regardless of its length (the source has no minimum-sample check); on
the 3-point series `[100, -50, 9000]` with 1%/99% bounds the quantiles are
`-47` and `8822`, so only the middle point `100` is retained. -/
theorem C3_amended :
    remove_outliers [100, -50, 9000] (1/100) (99/100) = [100] := by
  obtain ⟨h1, h2⟩ := quantiles_scenario
  simp only [remove_outliers, h1, h2]
  decide

/-- Helper for C7: the first filtering pass on `[0, 10, 20, 30]` keeps
`[10, 20]` (bounds `0.3` and `29.7`), and the second pass on `[10, 20]` keeps
nothing (bounds `10.1` and `19.9`). -/
theorem remove_outliers_twice_shrinks :
    remove_outliers [0, 10, 20, 30] (1/100) (99/100) = [10, 20] ∧
    remove_outliers [10, 20] (1/100) (99/100) = [] := by
  have hs4 : List.insertionSort (· ≤ ·) [(0:ℚ), 10, 20, 30] = [0, 10, 20, 30] := by
    decide
  have hs2 : List.insertionSort (· ≤ ·) [(10:ℚ), 20] = [10, 20] := by decide
  have q1 : pandas_quantile [0, 10, 20, 30] (1/100) = 3/10 := by
    simp only [pandas_quantile, hs4, List.length_cons, List.length_nil]
    norm_num [List.getD]
  have q2 : pandas_quantile [0, 10, 20, 30] (99/100) = 297/10 := by
    simp only [pandas_quantile, hs4, List.length_cons, List.length_nil]
    norm_num [List.getD, show Int.toNat 2 = 2 from rfl]
  have q3 : pandas_quantile [10, 20] (1/100) = 101/10 := by
    simp only [pandas_quantile, hs2, List.length_cons, List.length_nil]
    norm_num [List.getD]
  have q4 : pandas_quantile [10, 20] (99/100) = 199/10 := by
    simp only [pandas_quantile, hs2, List.length_cons, List.length_nil]
    norm_num [List.getD]
  constructor
  · simp only [remove_outliers, q1, q2, List.filter_cons, List.filter_nil,
      Bool.and_eq_true, decide_eq_true_eq]
    norm_num
  · simp only [remove_outliers, q3, q4, List.filter_cons, List.filter_nil,
      Bool.and_eq_true, decide_eq_true_eq]
    norm_num

/-- Claim C7 (counterexample): the outlier filter is not idempotent — on
`[0, 10, 20, 30]` with the default 1%/99% bounds the first pass keeps
`[10, 20]`, and re-filtering `[10, 20]` with the same bounds removes both
remaining points. -/
theorem C7_counterexample :
    remove_outliers (remove_outliers [0, 10, 20, 30] (1/100) (99/100)) (1/100) (99/100)
      ≠ remove_outliers [0, 10, 20, 30] (1/100) (99/100) := by
  obtain ⟨h1, h2⟩ := remove_outliers_twice_shrinks
  rw [h1, h2]
  decide

/-- Claim C7 (amended): re-applying `remove_outliers` with the same quantile
bounds always yields a subsequence of the once-filtered series (it never adds
or reorders points), but it may strictly remove more points, so the filter is
not idempotent in general. -/
theorem C7_amended (xs : List ℚ) (ql qh : ℚ) :
    (remove_outliers (remove_outliers xs ql qh) ql qh).Sublist
      (remove_outliers xs ql qh) := by
  conv_lhs => rw [remove_outliers]
  exact List.filter_sublist _

/-- One row of the forecaster output frame (`yhat`, `yhat_lower`,
`yhat_upper`). -/
structure ForecastRow where
  yhat : ℚ
  yhat_lower : ℚ
  yhat_upper : ℚ
deriving DecidableEq

/-- Pandas `DataFrame.tail(n)`: the last `n` rows (all rows when `n` exceeds
the length). -/
def pyTail (l : List α) (n : ℕ) : List α := l.drop (l.length - n)

/-- `display_forecast`: take the trailing `periods` rows and floor all three
fields at zero before display. -/
def display_forecast (forecast : List ForecastRow) (periods : ℕ) :
    List ForecastRow :=
  (pyTail forecast periods).map fun r =>
    { yhat := max r.yhat 0, yhat_lower := max r.yhat_lower 0,
      yhat_upper := max r.yhat_upper 0 }

/-- `save_forecast_to_excel`: take the trailing `periods` rows and export the
three fields unchanged — no flooring is applied on this path. -/
def save_forecast_to_excel (forecast : List ForecastRow) (periods : ℕ) :
    List ForecastRow :=
  pyTail forecast periods

/-- Claim C6 (counterexample): a forecaster output whose single trailing row
is negative in all three fields is exported by `save_forecast_to_excel`
unchanged, so the exported forecast file contains values `< 0`. -/
theorem C6_counterexample :
    save_forecast_to_excel [⟨-5, -6, -7⟩] 1 = [⟨-5, -6, -7⟩] ∧
    ¬ (∀ r ∈ save_forecast_to_excel [⟨-5, -6, -7⟩] 1,
        0 ≤ r.yhat ∧ 0 ≤ r.yhat_lower ∧ 0 ≤ r.yhat_upper) := by
  constructor
  · rfl
  · intro h
    have := (h ⟨-5, -6, -7⟩ (by decide)).1
    norm_num at this

/-- Claim C6 (amended): every row of the displayed forecast has all three
fields floored at zero, i.e. `≥ 0`; the exported file, in contrast, receives
the raw trailing rows of the forecaster output without flooring (see the
counterexample). -/
theorem C6_amended (forecast : List ForecastRow) (periods : ℕ)
    (r : ForecastRow) (hr : r ∈ display_forecast forecast periods) :
    0 ≤ r.yhat ∧ 0 ≤ r.yhat_lower ∧ 0 ≤ r.yhat_upper := by
  obtain ⟨s, -, rfl⟩ := List.mem_map.mp hr
  exact ⟨le_max_right _ _, le_max_right _ _, le_max_right _ _⟩

/-- Witness for C6_amended: the displayed version of the all-negative row is
floored to zero in each field. -/
theorem C6_witness :
    0 ≤ (⟨0, 0, 0⟩ : ForecastRow).yhat ∧
    0 ≤ (⟨0, 0, 0⟩ : ForecastRow).yhat_lower ∧
    0 ≤ (⟨0, 0, 0⟩ : ForecastRow).yhat_upper :=
  C6_amended [⟨-5, -6, -7⟩] 1 ⟨0, 0, 0⟩ (by
    show (⟨0, 0, 0⟩ : ForecastRow) ∈
      [⟨max (-5) 0, max (-6) 0, max (-7) 0⟩]
    norm_num)

/-- A normalized transaction as used by the aggregation stage: derived
`amount`, `transaction_type` and `category` columns. -/
structure Txn where
  amount : ℚ
  transaction_type : List Char
  category : List Char
deriving DecidableEq

/-- `total_expenditure`: sum of `amount` over the withdrawal rows. -/
def total_expenditure (df : List Txn) : ℚ :=
  (((df.filter fun t => decide (t.transaction_type = chars "withdrawal"))).map
    Txn.amount).sum

/-- `category_spending`: restrict to withdrawal rows, group by `category`,
and sum `amount`; this is the per-group sum for the key `c`. -/
def category_spending (df : List Txn) (c : List Char) : ℚ :=
  ((((df.filter fun t => decide (t.transaction_type = chars "withdrawal")).filter
      fun t => decide (t.category = c)).map Txn.amount)).sum

/-- The group keys produced by the `groupby('category')` on the withdrawal
rows: the distinct categories that actually occur. -/
def spending_categories (df : List Txn) : List (List Char) :=
  ((df.filter fun t => decide (t.transaction_type = chars "withdrawal")).map
    Txn.category).dedup

theorem sum_map_add_q {α : Type} (f g : α → ℚ) (l : List α) :
    (l.map fun x => f x + g x).sum = (l.map f).sum + (l.map g).sum := by
  induction l with
  | nil => simp
  | cons x xs ih => simp [ih]; ring

theorem sum_map_ite_ne {keys : List (List Char)} {c0 : List Char} (a : ℚ)
    (hne : ∀ c ∈ keys, c ≠ c0) :
    (keys.map fun c => if c0 = c then a else 0).sum = 0 := by
  induction keys with
  | nil => simp
  | cons k ks ih =>
    have hk : c0 ≠ k := fun h => (hne k (by simp)) h.symm
    simp only [List.map_cons, List.sum_cons, if_neg hk]
    rw [ih fun c hc => hne c (by simp [hc])]
    ring

theorem sum_map_ite_eq_mem {keys : List (List Char)} {c0 : List Char} (a : ℚ)
    (hnd : keys.Nodup) (hc : c0 ∈ keys) :
    (keys.map fun c => if c0 = c then a else 0).sum = a := by
  induction keys with
  | nil => cases hc
  | cons k ks ih =>
    rcases List.mem_cons.mp hc with h | h
    · subst h
      rw [List.map_cons, List.sum_cons, if_pos rfl,
        sum_map_ite_ne a fun c hcks => fun hcc => by
          subst hcc; exact (List.nodup_cons.mp hnd).1 hcks,
        add_zero]
    · have hk : c0 ≠ k := fun hcc => by
        subst hcc; exact (List.nodup_cons.mp hnd).1 h
      rw [List.map_cons, List.sum_cons, if_neg hk,
        ih (List.nodup_cons.mp hnd).2 h, zero_add]

/-- Fiber decomposition: summing the per-category filtered sums over a
duplicate-free list of keys covering every row's category recovers the total
sum. -/
theorem sum_fibers (keys : List (List Char)) (xs : List Txn)
    (hnd : keys.Nodup) (hmem : ∀ t ∈ xs, t.category ∈ keys) :
    (keys.map fun c =>
      ((xs.filter fun t => decide (t.category = c)).map Txn.amount).sum).sum
      = (xs.map Txn.amount).sum := by
  induction xs with
  | nil => simp
  | cons x xs ih =>
    have hstep : ∀ c : List Char,
        (((x :: xs).filter fun t => decide (t.category = c)).map Txn.amount).sum
          = (if x.category = c then x.amount else 0) +
            ((xs.filter fun t => decide (t.category = c)).map Txn.amount).sum := by
      intro c
      by_cases h : x.category = c <;>
        simp [List.filter_cons, h]
    simp only [hstep]
    rw [sum_map_add_q, ih fun t ht => hmem t (by simp [ht]),
      sum_map_ite_eq_mem x.amount hnd (hmem x (by simp))]
    simp

/-- Claim C9: for every ledger, the per-category spending sums over the
`groupby` keys add up exactly to the total expenditure — no withdrawal row is
dropped or double-counted by the grouping. -/
theorem C9_category_totals (df : List Txn) :
    ((spending_categories df).map (category_spending df)).sum
      = total_expenditure df := by
  unfold spending_categories category_spending total_expenditure
  exact sum_fibers _ _ (List.nodup_dedup _) fun t ht =>
    List.mem_dedup.mpr (List.mem_map_of_mem Txn.category ht)

/-- Scanning rows that are neither header rows nor summary rows just advances
the index. -/
theorem find_tx_loop_append (L rest : List (List (List Char)))
    (hL : ∀ r ∈ L, isHdrRow r = false ∧ isSumRow r = false) :
    ∀ (i : ℤ) (start : Option ℤ),
      find_tx_loop (L ++ rest) i start
        = find_tx_loop rest (i + L.length) start := by
  induction L with
  | nil => intro i start; simp
  | cons r rs ih =>
    intro i start
    have hr := hL r (by simp)
    rw [List.cons_append]
    simp only [find_tx_loop, hr.1, hr.2, Bool.false_eq_true, if_false]
    rw [ih (fun q hq => hL q (by simp [hq])) (i + 1) start]
    have harg : i + 1 + (rs.length : ℤ) = i + ((r :: rs).length : ℤ) := by
      simp [List.length_cons]; ring
    rw [harg]

/-- Claim C4 (counterexample): in a sheet whose rows are the header, two data
rows, and the `Statement Summary` marker, the extracted table contains only
the first data row — the row immediately before the summary row is NOT
included. -/
theorem C4_counterexample :
    extract_table [[chars "Date", chars "Narration"], [chars "row1"],
        [chars "row2"], [chars "Statement Summary"]]
      = [[chars "row1"]] ∧
    [chars "row2"] ∉ extract_table [[chars "Date", chars "Narration"],
        [chars "row1"], [chars "row2"], [chars "Statement Summary"]] := by
  constructor
  · decide
  · decide

/-- Claim C4 (amended): for a sheet consisting of the `Date`/`Narration`
header row, data rows `B`, one further data row `lastRow`, and the
`Statement Summary` marker (where no row of `B ++ [lastRow]` matches either
marker), the extracted table is exactly `B`: every row from the row after the
header up to TWO rows before the summary marker; the row immediately before
the summary marker (`lastRow`) is excluded, because the code uses the
(marker index − 1) as the exclusive bound of the `iloc` slice. -/
theorem C4_amended (B : List (List (List Char))) (lastRow : List (List Char))
    (hB : ∀ r ∈ B ++ [lastRow], isHdrRow r = false ∧ isSumRow r = false) :
    extract_table ([chars "Date", chars "Narration"] ::
      (B ++ [lastRow, [chars "Statement Summary"]])) = B := by
  have hhdr : isHdrRow [chars "Date", chars "Narration"] = true := by decide
  have hsum1 : isHdrRow [chars "Statement Summary"] = false := by decide
  have hsum2 : isSumRow [chars "Statement Summary"] = true := by decide
  have hlast := hB lastRow (by simp)
  have hBonly : ∀ r ∈ B, isHdrRow r = false ∧ isSumRow r = false :=
    fun r hr => hB r (by simp [hr])
  have hfind : find_transaction_data_indices
      ([chars "Date", chars "Narration"] ::
        (B ++ [lastRow, [chars "Statement Summary"]]))
      = (some 1, some ((B.length : ℤ) + 1)) := by
    unfold find_transaction_data_indices
    simp only [find_tx_loop, hhdr, if_true]
    rw [find_tx_loop_append B _ hBonly]
    simp only [find_tx_loop, hlast.1, hlast.2, hsum1, hsum2,
      Bool.false_eq_true, if_false, if_true]
    have h0 : (0 : ℤ) + 1 + (B.length : ℤ) + 1 - 1 = (B.length : ℤ) + 1 := by ring
    rw [h0]
    norm_num
  unfold extract_table
  rw [hfind]
  simp only [pySlice]
  have hlen : ([chars "Date", chars "Narration"] ::
      (B ++ [lastRow, [chars "Statement Summary"]])).length = B.length + 3 := by
    simp [List.length_cons, List.length_append]
  rw [hlen]
  have h1 : ¬ ((1 : ℤ) < 0) := by norm_num
  have h2 : ¬ ((B.length : ℤ) + 1 < 0) := by omega
  simp only [h1, h2, if_false]
  have h3 : ((1 : ℤ)).toNat = 1 := rfl
  have h4 : ((B.length : ℤ) + 1).toNat = B.length + 1 := by omega
  rw [h3, h4]
  have h5 : min 1 (B.length + 3) = 1 := by omega
  have h6 : min (B.length + 1) (B.length + 3) = B.length + 1 := by omega
  rw [h5, h6]
  rw [List.take_succ_cons, List.take_left]
  rfl

/-- Witness for C4_amended with one interior data row and one final data row:
the single interior row is extracted, the final pre-summary row is not. -/
theorem C4_witness :
    extract_table ([chars "Date", chars "Narration"] ::
      ([[chars "r1"]] ++ [[chars "r2"], [chars "Statement Summary"]])) = [[chars "r1"]] :=
  C4_amended [[chars "r1"]] [chars "r2"] (by decide)

/-- `re.search`: try to match at each successive start position, leftmost
match wins (the empty suffix is also a valid start position). -/
def reSearch {α : Type} (try1 : List Char → Option α) : List Char → Option α
  | [] => try1 []
  | c :: rest =>
    match try1 (c :: rest) with
    | some v => some v
    | none => reSearch try1 rest

/-- Match `lit\s*:\s*(\d+)` at the start of `s`, returning the digit group. -/
def tryLitColonDigits (lit : List Char) (s : List Char) : Option (List Char) :=
  if lit.isPrefixOf s then
    match (s.drop lit.length).dropWhile (fun c => pyIsSpace c) with
    | ':' :: r2 =>
      let ds := (r2.dropWhile fun c => pyIsSpace c).takeWhile fun c => c.isDigit
      if ds.isEmpty then none else some ds
    | _ => none
  else none

/-- Match `Email\s*:\s*(.*)` at the start of `s`, returning the rest-of-line
group (unstripped; the caller strips). -/
def tryEmail (s : List Char) : Option (List Char) :=
  if (chars "Email").isPrefixOf s then
    match (s.drop 5).dropWhile (fun c => pyIsSpace c) with
    | ':' :: r2 => some ((r2.dropWhile fun c => pyIsSpace c).takeWhile fun c => c ≠ '\n')
    | _ => none
  else none

/-- Match `\s*To\s*:\s*(.*)` at the start of `t` (the part of the
`Statement From` pattern that follows the lazy first group). -/
def stmtSplitTo (t : List Char) : Option (List Char) :=
  let t1 := t.dropWhile fun c => pyIsSpace c
  if (chars "To").isPrefixOf t1 then
    match (t1.drop 2).dropWhile (fun c => pyIsSpace c) with
    | ':' :: t3 => some ((t3.dropWhile fun c => pyIsSpace c).takeWhile fun c => c ≠ '\n')
    | _ => none
  else none

/-- The lazy group `(.*?)` of the `Statement From` pattern: extend the first
group one character at a time (never across a newline) until the
`\s*To\s*:\s*(.*)` tail matches. -/
def stmtLoop : List Char → List Char → Option (List Char × List Char)
  | acc, t =>
    match stmtSplitTo t with
    | some g2 => some (acc.reverse, g2)
    | none =>
      match t with
      | [] => none
      | c :: rest => if c = '\n' then none else stmtLoop (c :: acc) rest
termination_by _ t => t.length

/-- Match `Statement From\s*:\s*(.*?)\s*To\s*:\s*(.*)` at the start of `s`,
returning the two groups. -/
def tryStmt (s : List Char) : Option (List Char × List Char) :=
  if (chars "Statement From").isPrefixOf s then
    match (s.drop 14).dropWhile (fun c => pyIsSpace c) with
    | ':' :: r2 => stmtLoop [] (r2.dropWhile fun c => pyIsSpace c)
    | _ => none
  else none

/-- Match `(MR|MRS|MS)\s*(.*)` at the start of `s`, returning the second
group (unstripped).  Alternation is leftmost: `MR` is tried before `MRS`, so
a match of `MR` always wins and the `MRS` branch is unreachable. -/
def tryName (s : List Char) : Option (List Char) :=
  if (chars "MR").isPrefixOf s || (chars "MS").isPrefixOf s then
    some (((s.drop 2).dropWhile fun c => pyIsSpace c).takeWhile fun c => c ≠ '\n')
  else none

/-- The optional header fields collected by `extract_header_info`. -/
structure HeaderInfo where
  statement_from : Option (List Char) := none
  statement_to : Option (List Char) := none
  account_number : Option (List Char) := none
  email : Option (List Char) := none
  name : Option (List Char) := none
  customer_id : Option (List Char) := none
deriving DecidableEq

/-- One row of `extract_header_info`'s loop: the `elif` chain of substring
guards with a regex search in each branch.  Every successful match assigns the
field unconditionally (a dict assignment), overwriting any earlier value. -/
def header_line_step (info : HeaderInfo) (line : List Char) : HeaderInfo :=
  if isSubstr (chars "Statement From") line then
    match reSearch tryStmt line with
    | some (f, t) => { info with statement_from := some f, statement_to := some t }
    | none => info
  else if isSubstr (chars "Account No") line then
    match reSearch (tryLitColonDigits (chars "Account No")) line with
    | some v => { info with account_number := some v }
    | none => info
  else if isSubstr (chars "Email") line then
    match reSearch tryEmail line with
    | some v => { info with email := some (pyStrip v) }
    | none => info
  else if isSubstr (chars "MR") line || isSubstr (chars "MRS") line ||
      isSubstr (chars "MS") line then
    match reSearch tryName line with
    | some v => { info with name := some (pyStrip v) }
    | none => info
  else if isSubstr (chars "Cust ID") line then
    match reSearch (tryLitColonDigits (chars "Cust ID")) line with
    | some v => { info with customer_id := some v }
    | none => info
  else info

/-- `' '.join(map(str, row.dropna()))`: the text line of one raw sheet row
(cells are `none` when the cell is NaN). -/
def rowLine (row : List (Option (List Char))) : List Char :=
  joinSpace (row.filterMap id)

/-- `extract_header_info`. -/
def extract_header_info (df : List (List (Option (List Char)))) : HeaderInfo :=
  df.foldl (fun info row => header_line_step info (rowLine row)) {}

/-- Claim C5 (counterexample): with two rows both matching the Email pattern,
the extracted Email is the value of the SECOND (later) row, not the first —
later duplicate matches overwrite the earlier value. -/
theorem C5_counterexample :
    (extract_header_info [[some (chars "Email: first@x.com")],
        [some (chars "Email: second@y.com")]]).email
      = some (chars "second@y.com") ∧
    (extract_header_info [[some (chars "Email: first@x.com")],
        [some (chars "Email: second@y.com")]]).email
      ≠ some (chars "first@x.com") := by
  constructor
  · decide
  · decide

/-- Claim C5 (amended): the LAST matching row wins.  Appending to a sheet a
row whose line avoids the earlier `elif` guards, contains `Email`, and whose
regex search yields `v`, makes the extracted Email `strip v` — regardless of
any Email value extracted from the earlier rows. -/
theorem C5_amended (rows : List (List (Option (List Char))))
    (r : List (Option (List Char))) (v : List Char)
    (h1 : isSubstr (chars "Statement From") (rowLine r) = false)
    (h2 : isSubstr (chars "Account No") (rowLine r) = false)
    (h3 : isSubstr (chars "Email") (rowLine r) = true)
    (h4 : reSearch tryEmail (rowLine r) = some v) :
    (extract_header_info (rows ++ [r])).email = some (pyStrip v) := by
  unfold extract_header_info
  rw [List.foldl_append]
  simp [header_line_step, h1, h2, h3, h4]

/-- Witness for C5_amended: a single appended Email row sets the field. -/
theorem C5_witness :
    (extract_header_info ([[some (chars "Email: a@x.com")]] ++
        [[some (chars "Email: b@y.com")]])).email
      = some (pyStrip (chars "b@y.com")) :=
  C5_amended [[some (chars "Email: a@x.com")]] [some (chars "Email: b@y.com")]
    (chars "b@y.com") (by decide) (by decide) (by decide) (by decide)

/-- Claim C8: the narration `"UPI/AMAZON PAY/123"` cleans to
`"upi amazon pay 123"`; both the `transfer` keyword `upi` and the `shopping`
keyword `amazon` occur in the cleaned narration, yet the classifier returns
`transfer` because `transfer` is declared first — and had the taxonomy
started at `shopping`, the same narration would have classified as
`shopping`, so the declaration order is what decides. -/
theorem C8_precedence :
    clean_text (chars "UPI/AMAZON PAY/123") = chars "upi amazon pay 123" ∧
    isSubstr (chars "upi") (chars "upi amazon pay 123") = true ∧
    isSubstr (chars "amazon") (chars "upi amazon pay 123") = true ∧
    categorize_transaction (chars "upi amazon pay 123") = chars "transfer" ∧
    categorize_loop (categories.drop 2) (chars "upi amazon pay 123")
      = chars "shopping" := by
  refine ⟨by decide, by decide, by decide, by decide, by decide⟩

theorem char_toNat_inj {c d : Char} (h : c.toNat = d.toNat) : c = d :=
  Char.eq_of_val_eq (UInt32.toNat.inj h)

theorem char_toNat_ofNat_lt {n : ℕ} (h : n < 55296) : (Char.ofNat n).toNat = n := by
  have hv : n.isValidChar := Or.inl h
  simp only [Char.ofNat, hv, dif_pos, Char.ofNatAux, Char.toNat, UInt32.toNat]
  simp

theorem toNat_toLower (c : Char) :
    (Char.toLower c).toNat
      = if 65 ≤ c.toNat ∧ c.toNat ≤ 90 then c.toNat + 32 else c.toNat := by
  unfold Char.toLower
  split
  · next h =>
    rw [if_pos ⟨h.1, h.2⟩]
    exact char_toNat_ofNat_lt (by omega)
  · next h =>
    rw [if_neg fun hc => h ⟨hc.1, hc.2⟩]

theorem toLower_eq_self {c : Char} (h : ¬ (65 ≤ c.toNat ∧ c.toNat ≤ 90)) :
    Char.toLower c = c := by
  have hnat := toNat_toLower c
  rw [if_neg h] at hnat
  exact char_toNat_inj hnat

theorem toLower_toLower (c : Char) :
    Char.toLower (Char.toLower c) = Char.toLower c := by
  by_cases h : 65 ≤ c.toNat ∧ c.toNat ≤ 90
  · apply toLower_eq_self
    rw [toNat_toLower, if_pos h]
    omega
  · rw [toLower_eq_self h, toLower_eq_self h]

/-- Characters that the cleaning pipeline leaves unchanged: fixed by the
case mapping, kept by the character-class substitution, and equal to the
plain space if whitespace at all. -/
def goodCh (c : Char) : Prop :=
  Char.toLower c = c ∧ subNonAlnum c = c ∧ (pyIsSpace c = true → c = ' ')

theorem goodCh_space : goodCh ' ' :=
  ⟨by decide, by decide, fun _ => rfl⟩

theorem goodCh_subLower (c : Char) : goodCh (subNonAlnum (Char.toLower c)) := by
  by_cases hk : keepChar (Char.toLower c) = true
  · have hfix : subNonAlnum (Char.toLower c) = Char.toLower c := by
      rw [subNonAlnum, if_pos hk]
    rw [hfix]
    refine ⟨toLower_toLower c, hfix, fun hsp => ?_⟩
    have hk' := hk
    simp only [keepChar, decide_eq_true_eq] at hk'
    simp only [pyIsSpace, decide_eq_true_eq] at hsp
    have h32 : (Char.toLower c).toNat = 32 := by
      rcases hk' with h | h | h | h <;> omega
    exact char_toNat_inj (by rw [h32]; rfl)
  · have hfix : subNonAlnum (Char.toLower c) = ' ' := by
      rw [subNonAlnum, if_neg hk]
    rw [hfix]
    exact goodCh_space

/-- No two adjacent whitespace characters. -/
def noTwoWs : List Char → Prop
  | c :: d :: l => ¬ (pyIsSpace c = true ∧ pyIsSpace d = true) ∧ noTwoWs (d :: l)
  | _ => True

theorem noTwoWs_tail {c : Char} {l : List Char} (h : noTwoWs (c :: l)) :
    noTwoWs l := by
  cases l with
  | nil => trivial
  | cons d ds => exact h.2

theorem map_fix {f : Char → Char} {l : List Char} (h : ∀ c ∈ l, f c = c) :
    l.map f = l := by
  induction l with
  | nil => rfl
  | cons c cs ih =>
    rw [List.map_cons, h c (by simp), ih fun d hd => h d (by simp [hd])]

theorem collapseWs_mem {l : List Char} {c : Char} (h : c ∈ collapseWs l) :
    c = ' ' ∨ c ∈ l := by
  induction l with
  | nil => simp [collapseWs] at h
  | cons a tail ih =>
    cases tail with
    | nil =>
      by_cases ha : pyIsSpace a = true <;> simp [collapseWs, ha] at h
      · exact Or.inl h
      · exact Or.inr (by simp [h])
    | cons d cs =>
      by_cases ha : pyIsSpace a = true
      · by_cases hd : pyIsSpace d = true
        · rw [show collapseWs (a :: d :: cs) = collapseWs (d :: cs) by
            simp [collapseWs, ha, hd]] at h
          rcases ih h with h' | h'
          · exact Or.inl h'
          · exact Or.inr (by simp [h'])
        · rw [show collapseWs (a :: d :: cs) = ' ' :: collapseWs (d :: cs) by
            simp [collapseWs, ha, hd]] at h
          rcases List.mem_cons.mp h with h' | h'
          · exact Or.inl h'
          · rcases ih h' with h'' | h''
            · exact Or.inl h''
            · exact Or.inr (by simp [h''])
      · rw [show collapseWs (a :: d :: cs) = a :: collapseWs (d :: cs) by
          simp [collapseWs, ha]] at h
        rcases List.mem_cons.mp h with h' | h'
        · exact Or.inr (by simp [h'])
        · rcases ih h' with h'' | h''
          · exact Or.inl h''
          · exact Or.inr (by simp [h''])

theorem collapseWs_head (d : Char) (cs : List Char) :
    ∃ r, collapseWs (d :: cs) = (if pyIsSpace d then ' ' else d) :: r := by
  induction cs generalizing d with
  | nil =>
    by_cases hd : pyIsSpace d = true <;> simp [collapseWs, hd]
  | cons e es ih =>
    by_cases hd : pyIsSpace d = true
    · by_cases he : pyIsSpace e = true
      · obtain ⟨r, hr⟩ := ih e
        refine ⟨r, ?_⟩
        rw [show collapseWs (d :: e :: es) = collapseWs (e :: es) by
          simp [collapseWs, hd, he], hr]
        simp [hd, he]
      · exact ⟨collapseWs (e :: es), by simp [collapseWs, hd, he]⟩
    · exact ⟨collapseWs (e :: es), by simp [collapseWs, hd]⟩

theorem collapseWs_noTwoWs (l : List Char) : noTwoWs (collapseWs l) := by
  induction l with
  | nil => trivial
  | cons a tail ih =>
    cases tail with
    | nil =>
      by_cases ha : pyIsSpace a = true <;> simp [collapseWs, ha] <;> trivial
    | cons d cs =>
      by_cases ha : pyIsSpace a = true
      · by_cases hd : pyIsSpace d = true
        · rw [show collapseWs (a :: d :: cs) = collapseWs (d :: cs) by
            simp [collapseWs, ha, hd]]
          exact ih
        · rw [show collapseWs (a :: d :: cs) = ' ' :: collapseWs (d :: cs) by
            simp [collapseWs, ha, hd]]
          obtain ⟨r, hr⟩ := collapseWs_head d cs
          rw [hr] at ih ⊢
          rw [if_neg hd] at ih ⊢
          exact ⟨fun hc => hd hc.2, ih⟩
      · rw [show collapseWs (a :: d :: cs) = a :: collapseWs (d :: cs) by
          simp [collapseWs, ha]]
        obtain ⟨r, hr⟩ := collapseWs_head d cs
        rw [hr] at ih ⊢
        refine ⟨fun hc => ha hc.1, ih⟩

theorem collapseWs_fix {l : List Char} (h1 : noTwoWs l)
    (h2 : ∀ c ∈ l, pyIsSpace c = true → c = ' ') : collapseWs l = l := by
  induction l with
  | nil => rfl
  | cons a tail ih =>
    cases tail with
    | nil =>
      by_cases ha : pyIsSpace a = true
      · have ha' := h2 a (by simp) ha
        subst ha'
        simp [collapseWs, ha]
      · simp [collapseWs, ha]
    | cons d cs =>
      by_cases ha : pyIsSpace a = true
      · have hd : ¬ pyIsSpace d = true := fun hd => h1.1 ⟨ha, hd⟩
        rw [show collapseWs (a :: d :: cs) = ' ' :: collapseWs (d :: cs) by
          simp [collapseWs, ha, hd]]
        rw [ih (noTwoWs_tail h1) fun c hc hsp => h2 c (by simp [hc]) hsp,
          (h2 a (by simp) ha)]
      · rw [show collapseWs (a :: d :: cs) = a :: collapseWs (d :: cs) by
          simp [collapseWs, ha]]
        rw [ih (noTwoWs_tail h1) fun c hc hsp => h2 c (by simp [hc]) hsp]

theorem mem_dropWhile {p : Char → Bool} {l : List Char} {c : Char}
    (h : c ∈ l.dropWhile p) : c ∈ l := by
  induction l with
  | nil => simp at h
  | cons a tail ih =>
    by_cases ha : p a = true
    · rw [List.dropWhile_cons, if_pos ha] at h
      exact List.mem_cons.mpr (Or.inr (ih h))
    · rw [List.dropWhile_cons, if_neg ha] at h
      exact h

theorem dropWhile_noTwoWs {p : Char → Bool} {l : List Char} (h : noTwoWs l) :
    noTwoWs (l.dropWhile p) := by
  induction l with
  | nil => trivial
  | cons a tail ih =>
    by_cases ha : p a = true
    · rw [List.dropWhile_cons, if_pos ha]
      exact ih (noTwoWs_tail h)
    · rw [List.dropWhile_cons, if_neg ha]
      exact h

theorem dropWhile_head_false {p : Char → Bool} {l : List Char} {c : Char}
    {r : List Char} (h : l.dropWhile p = c :: r) : p c = false := by
  induction l with
  | nil => simp at h
  | cons a tail ih =>
    by_cases ha : p a = true
    · rw [List.dropWhile_cons, if_pos ha] at h
      exact ih h
    · rw [List.dropWhile_cons, if_neg ha] at h
      cases h
      exact Bool.not_eq_true _ ▸ (by simpa using ha)

theorem dropTrailWs_mem {l : List Char} {c : Char} (h : c ∈ dropTrailWs l) :
    c ∈ l := by
  induction l with
  | nil => simp [dropTrailWs] at h
  | cons a tail ih =>
    rw [dropTrailWs] at h
    rcases hres : dropTrailWs tail with - | ⟨b, r⟩
    · rw [hres] at h
      by_cases ha : pyIsSpace a = true <;> simp [ha] at h
      · simp [h]
    · rw [hres] at h
      rcases List.mem_cons.mp h with h' | h'
      · simp [h']
      · exact List.mem_cons.mpr (Or.inr (ih (by rw [hres]; exact h')))

theorem dropTrailWs_head (a : Char) (tail : List Char) :
    dropTrailWs (a :: tail) = [] ∨ ∃ r, dropTrailWs (a :: tail) = a :: r := by
  rw [dropTrailWs]
  rcases hres : dropTrailWs tail with - | ⟨b, r⟩
  · by_cases ha : pyIsSpace a = true
    · exact Or.inl (by simp [ha])
    · exact Or.inr ⟨[], by simp [ha]⟩
  · exact Or.inr ⟨b :: r, rfl⟩

theorem dropTrailWs_noTwoWs {l : List Char} (h : noTwoWs l) :
    noTwoWs (dropTrailWs l) := by
  induction l with
  | nil => trivial
  | cons a tail ih =>
    rw [dropTrailWs]
    rcases hres : dropTrailWs tail with - | ⟨b, r⟩
    · by_cases ha : pyIsSpace a = true <;> simp [ha] <;> trivial
    · cases tail with
      | nil => simp [dropTrailWs] at hres
      | cons d cs =>
        have hhead := dropTrailWs_head d cs
        rw [hres] at hhead
        rcases hhead with h' | ⟨r', hr'⟩
        · exact absurd h' (by simp)
        · have hbd : b = d := by
            have hinj := hr'
            rw [List.cons_eq_cons] at hinj
            exact hinj.1
          subst hbd
          have ihh := ih (noTwoWs_tail h)
          rw [hres] at ihh
          exact ⟨fun hc => h.1 ⟨hc.1, hc.2⟩, ihh⟩

theorem dropTrailWs_idem (l : List Char) :
    dropTrailWs (dropTrailWs l) = dropTrailWs l := by
  induction l with
  | nil => rfl
  | cons a tail ih =>
    rw [dropTrailWs]
    rcases hres : dropTrailWs tail with - | ⟨b, r⟩
    · by_cases ha : pyIsSpace a = true
      · simp [ha, dropTrailWs]
      · simp [ha, dropTrailWs]
    · rw [hres] at ih
      rw [dropTrailWs, ih]

theorem pyStrip_pyStrip (u : List Char) : pyStrip (pyStrip u) = pyStrip u := by
  unfold pyStrip
  have hdw : (dropTrailWs (u.dropWhile fun c => pyIsSpace c)).dropWhile
      (fun c => pyIsSpace c) = dropTrailWs (u.dropWhile fun c => pyIsSpace c) := by
    rcases hd : u.dropWhile (fun c => pyIsSpace c) with - | ⟨c, r⟩
    · simp [dropTrailWs]
    · have hc : pyIsSpace c = false := dropWhile_head_false hd
      rcases dropTrailWs_head c r with h' | ⟨r', hr'⟩
      · rw [h']
        rfl
      · rw [hr', List.dropWhile_cons, if_neg (by simp [hc])]
  rw [hdw, dropTrailWs_idem]

/-- Every character of a cleaned string is a fixed point of the cleaning
character maps and is the plain space if whitespace at all. -/
theorem clean_text_chars {s : List Char} {c : Char} (h : c ∈ clean_text s) :
    goodCh c := by
  unfold clean_text pyStrip at h
  have h1 : c ∈ collapseWs ((s.map Char.toLower).map subNonAlnum) :=
    mem_dropWhile (dropTrailWs_mem h)
  rcases collapseWs_mem h1 with h2 | h2
  · subst h2
    exact goodCh_space
  · obtain ⟨d, hd, rfl⟩ := List.mem_map.mp h2
    obtain ⟨e, -, rfl⟩ := List.mem_map.mp hd
    exact goodCh_subLower e

theorem clean_text_noTwoWs (s : List Char) : noTwoWs (clean_text s) := by
  unfold clean_text pyStrip
  exact dropTrailWs_noTwoWs (dropWhile_noTwoWs (collapseWs_noTwoWs _))

/-- Claim C10: narration cleaning is idempotent — re-cleaning an already
cleaned string changes nothing. -/
theorem C10_clean_text_idempotent (s : List Char) :
    clean_text (clean_text s) = clean_text s := by
  have hgood : ∀ c ∈ clean_text s, goodCh c := fun c hc => clean_text_chars hc
  have hmap1 : (clean_text s).map Char.toLower = clean_text s :=
    map_fix fun c hc => (hgood c hc).1
  have hmap2 : (clean_text s).map subNonAlnum = clean_text s :=
    map_fix fun c hc => (hgood c hc).2.1
  have hcoll : collapseWs (clean_text s) = clean_text s :=
    collapseWs_fix (clean_text_noTwoWs s)
      (fun c hc hsp => (hgood c hc).2.2 hsp)
  conv_lhs => rw [clean_text, hmap1, hmap2, hcoll]
  show pyStrip (clean_text s) = clean_text s
  conv_lhs => rw [clean_text]
  rw [pyStrip_pyStrip]
  rfl
